import Mathlib

/-!
Shallow embedding of `notestem` (src/main.rs): a word-frequency tool that
tokenizes text files, stems tokens with a Russian or English stemmer chosen
by an ASCII heuristic, aggregates per-stem statistics in a frequency
dictionary per language, and reports filtered, sorted rows.

Rust `HashMap<String, Entry>` is modelled as an association list with
first-match lookup and in-place update; `HashSet<String>` as `Finset String`.
The two stemmers and the grapheme-cluster counter are external library
capabilities (rust_stemmers, unicode_segmentation) and are passed in as
function parameters.
-/

namespace Notestem

/-- Per-stem statistics, mirroring `struct Entry` (src/main.rs lines 9-12). -/
structure Entry where
  amount : Nat
  contained_in : Finset String
deriving DecidableEq

/-- Frequency dictionary, mirroring `struct Dict` (src/main.rs lines 14-16).
The `HashMap` is modelled as an association list with unique-key discipline
maintained by `add`. -/
structure Dict where
  hashmap : List (String × Entry)
deriving DecidableEq

/-- First-match lookup in the association list, modelling
`HashMap::get` / `contains_key`. -/
def findEntry : List (String × Entry) → String → Option Entry
  | [], _ => none
  | (k, e) :: rest, w => if k = w then some e else findEntry rest w

/-- The amount recorded for a stem, `0` when the stem is absent. -/
def amountOf (l : List (String × Entry)) (s : String) : Nat :=
  (findEntry l s).elim 0 Entry.amount

/-- The file set recorded for a stem, `∅` when the stem is absent. -/
def filesOf (l : List (String × Entry)) (s : String) : Finset String :=
  (findEntry l s).elim ∅ Entry.contained_in

/-- Core of `Dict::add` (src/main.rs lines 23-37) on the underlying list:
if the key is present, increment `amount`, insert the file name into
`contained_in` and return the new amount; otherwise create a fresh entry
with amount 1 and file set `{fname}` and return 1. -/
def addList : List (String × Entry) → String → String → List (String × Entry) × Nat
  | [], w, f => ([(w, ⟨1, {f}⟩)], 1)
  | (k, e) :: rest, w, f =>
    if k = w then
      ((k, ⟨e.amount + 1, insert f e.contained_in⟩) :: rest, e.amount + 1)
    else
      let r := addList rest w f
      ((k, e) :: r.1, r.2)

/-- `Dict::new` (src/main.rs lines 19-21). -/
def Dict.new : Dict := ⟨[]⟩

/-- `Dict::add` (src/main.rs lines 23-37): returns the updated dictionary
together with the post-update amount. -/
def Dict.add (d : Dict) (word fname : String) : Dict × Nat :=
  let r := addList d.hashmap word fname
  (⟨r.1⟩, r.2)

/-- The descending-amount order used by `v.sort_by(|a, b| b.1.cmp(&a.1))`
(src/main.rs line 48). -/
def amountGE (a b : String × Nat × Finset String) : Prop :=
  b.2.1 ≤ a.2.1

instance : DecidableRel amountGE := fun a b => Nat.decLe b.2.1 a.2.1

/-- `Dict::sort` (src/main.rs lines 39-51): map entries to
`(word, amount, contained_in)` triples, keep those with
`contained_in.len() > filenum && amount >= words && graphemes(word) > length`,
then sort descending by amount. `glen` stands for the external
grapheme-cluster counter `graphemes(true).count()`; Rust's stable `sort_by`
is modelled by the stable `insertionSort`. -/
def Dict.sort (d : Dict) (glen : String → Nat) (words filenum length : Nat) :
    List (String × Nat × Finset String) :=
  let v := ((d.hashmap.map (fun p => (p.1, p.2.amount, p.2.contained_in))).filter
    (fun t => decide (filenum < t.2.2.card) && decide (words ≤ t.2.1) &&
      decide (length < glen t.1)))
  v.insertionSort amountGE

/-- `stem_and_compare` (src/main.rs lines 54-56): stem every excluded word
with the given stemmer and count those equal to the stem of `str1`; true
iff the count is positive. -/
def stem_and_compare (stemmer : String → String) (str1 : String)
    (strvec : List String) : Bool :=
  0 < ((strvec.map (fun word => stemmer word)).filter
    (fun word => word == stemmer str1)).length

/-- A dictionary built by replaying a sequence of `add` calls on a fresh
dictionary (each call is a `(stem, fname)` pair). -/
def runAdds (calls : List (String × String)) : Dict :=
  calls.foldl (fun d c => (d.add c.1 c.2).1) Dict.new

/-!
## Tokenizer (src/main.rs lines 127-136)

Rust character classification (`char::is_alphabetic`, `char::is_whitespace`,
`str::to_lowercase`) is an external capability; a `CharClass` record carries
the three functions. `asciiCC` instantiates them with Lean's ASCII-accurate
versions, which agree with Rust on ASCII input.
-/

/-- The character-classification capability used by the tokenizer. -/
structure CharClass where
  isAlphabetic : Char → Bool
  isWhitespace : Char → Bool
  toLower : Char → Char

/-- The ASCII instantiation: agrees with Rust `is_alphabetic`,
`is_whitespace` and `to_lowercase` on ASCII characters. -/
def asciiCC : CharClass :=
  ⟨fun c => c.isAlpha, fun c => c.isWhitespace, fun c => c.toLower⟩

/-- Rust `str::split(' ')`: split a character list on the space character,
keeping empty pieces (leading, trailing and between consecutive spaces). -/
def splitSpace : List Char → List Char → List (List Char)
  | [], acc => [acc.reverse]
  | c :: rest, acc =>
    if c = ' ' then acc.reverse :: splitSpace rest []
    else splitSpace rest (c :: acc)

/-- The tokenizer (src/main.rs lines 127-136): lower-case the whole text,
keep only characters that are alphabetic or (whitespace and not a newline),
then split the result on the space character. -/
def tokenize (cc : CharClass) (buf : List Char) : List (List Char) :=
  splitSpace ((buf.map cc.toLower).filter
    (fun c => cc.isAlphabetic c || (cc.isWhitespace c && !(c = '\n')))) []

/-- Modelled from the spec: section 4.2 describes the tokenizer as
lower-casing the entire text, retaining only characters that are alphabetic
OR (whitespace AND not a newline), and splitting the resulting string on the
plain space character. Stated as its own definition to compare against the
source-derived `tokenize`. -/
def tokenizeSpec (cc : CharClass) (buf : List Char) : List (List Char) :=
  let lowered := buf.map cc.toLower
  let kept := lowered.filter
    (fun c => cc.isAlphabetic c || (cc.isWhitespace c && !(c = '\n')))
  splitSpace kept []

/-!
## The per-file processing loops and the report (src/main.rs lines 102-183)
-/

/-- Rust `w.is_ascii()`: every char below 128 (true for the empty string). -/
def isAsciiStr (w : String) : Bool :=
  w.data.all (fun c => c.toNat < 128)

/-- First-match lookup in the `unstemmed` map
(`HashMap<String, String>`, src/main.rs line 105). -/
def lookupU : List (String × String) → String → Option String
  | [], _ => none
  | (k, v) :: rest, w => if k = w then some v else lookupU rest w

/-- The mutable state threaded through file processing: the two frequency
dictionaries (src/main.rs lines 102-103) and the shared `unstemmed` map
(line 105). -/
structure PState where
  ru : Dict
  en : Dict
  unstemmed : List (String × String)

/-- The initial state: two fresh dictionaries and an empty unstemmed map. -/
def initState : PState := ⟨Dict.new, Dict.new, []⟩

/-- One iteration of the Russian loop (src/main.rs lines 138-153): a
non-ASCII token is stemmed with the Russian stemmer; if its stem matches an
excluded word's stem the token is skipped; otherwise the stem is added to
the Russian dictionary and recorded in `unstemmed` if not yet present. -/
def ruStep (ruStem : String → String) (exclude : List String) (fname : String)
    (st : PState) (w : String) : PState :=
  if !(isAsciiStr w) then
    let stem := ruStem w
    if stem_and_compare ruStem w exclude then st
    else
      { st with
        ru := (st.ru.add stem fname).1,
        unstemmed :=
          if (lookupU st.unstemmed stem).isSome then st.unstemmed
          else st.unstemmed ++ [(stem, w)] }
  else st

/-- One iteration of the English loop (src/main.rs lines 155-168): the same
for an ASCII token with the English stemmer and dictionary. -/
def enStep (enStem : String → String) (exclude : List String) (fname : String)
    (st : PState) (w : String) : PState :=
  if isAsciiStr w then
    let stem := enStem w
    if stem_and_compare enStem w exclude then st
    else
      { st with
        en := (st.en.add stem fname).1,
        unstemmed :=
          if (lookupU st.unstemmed stem).isSome then st.unstemmed
          else st.unstemmed ++ [(stem, w)] }
  else st

/-- Processing one file's token list (src/main.rs lines 138-168): the
Russian loop over all tokens, then the English loop over all tokens. -/
def processFile (ruStem enStem : String → String) (exclude : List String)
    (st : PState) (fname : String) (words : List String) : PState :=
  let st1 := words.foldl (ruStep ruStem exclude fname) st
  words.foldl (enStep enStem exclude fname) st1

/-- The whole file-processing pass (src/main.rs lines 108-169): each file is
tokenized and processed in order, starting from fresh state. File contents
are given directly (I/O is external; a file that fails to read is simply
absent from the list). -/
def processAll (cc : CharClass) (ruStem enStem : String → String)
    (exclude : List String) (files : List (String × String)) : PState :=
  files.foldl
    (fun st p =>
      processFile ruStem enStem exclude st p.1
        ((tokenize cc p.2.data).map (fun cs => String.mk cs)))
    initState

/-- The rows the program prints (src/main.rs lines 171-179): the report loop
iterates over `ru_dict.sort(args.words, args.filenum, args.length)` only;
the English dictionary is never sorted or printed. -/
def reportRows (cc : CharClass) (ruStem enStem : String → String)
    (exclude : List String) (files : List (String × String))
    (glen : String → Nat) (words filenum length : Nat) :
    List (String × Nat × Finset String) :=
  (processAll cc ruStem enStem exclude files).ru.sort glen words filenum length

/-- The per-entry invariant: the occurrence count dominates the number of
files containing the stem. -/
def Dict.Inv (d : Dict) : Prop :=
  ∀ p ∈ d.hashmap, p.2.contained_in.card ≤ p.2.amount

/-- Every key of the dictionary has an entry in the unstemmed map. -/
def Covers (d : Dict) (u : List (String × String)) : Prop :=
  ∀ p ∈ d.hashmap, (lookupU u p.1).isSome = true

/-- The coverage invariant on the whole processing state: every key of
either dictionary has an entry in the unstemmed map. -/
def CoversSt (st : PState) : Prop :=
  Covers st.ru st.unstemmed ∧ Covers st.en st.unstemmed

/-!
## Lemmas about the dictionary operations
-/

theorem findEntry_addList (l : List (String × Entry)) (w f s : String) :
    findEntry (addList l w f).1 s =
      if s = w then some ⟨amountOf l w + 1, insert f (filesOf l w)⟩
      else findEntry l s := by
  induction l with
  | nil =>
    by_cases h : s = w
    · subst h
      simp [addList, findEntry, amountOf, filesOf, insert_emptyc_eq]
    · simp [addList, findEntry, h, Ne.symm h]
  | cons p rest ih =>
    obtain ⟨k, e⟩ := p
    by_cases hkw : k = w
    · subst hkw
      by_cases hs : s = k
      · subst hs
        simp [addList, findEntry, amountOf, filesOf]
      · simp [addList, findEntry, hs, Ne.symm hs]
    · by_cases hks : k = s
      · subst hks
        have hsw : ¬ (k = w) := hkw
        simp [addList, findEntry, hkw, hsw]
      · by_cases hsw : s = w
        · subst hsw
          simp [addList, findEntry, hkw, hks, ih, amountOf, filesOf]
        · simp [addList, findEntry, hkw, hks, hsw, ih]

theorem amountOf_addList (l : List (String × Entry)) (w f s : String) :
    amountOf (addList l w f).1 s =
      amountOf l s + (if s = w then 1 else 0) := by
  by_cases h : s = w
  · subst h; simp [amountOf, findEntry_addList]
  · simp [amountOf, findEntry_addList, h]

theorem filesOf_addList (l : List (String × Entry)) (w f s : String) :
    filesOf (addList l w f).1 s =
      if s = w then insert f (filesOf l s) else filesOf l s := by
  by_cases h : s = w
  · subst h; simp [filesOf, findEntry_addList]
  · simp [filesOf, findEntry_addList, h]

theorem addList_snd (l : List (String × Entry)) (w f : String) :
    (addList l w f).2 = amountOf l w + 1 := by
  induction l with
  | nil => simp [addList, amountOf, findEntry]
  | cons p rest ih =>
    obtain ⟨k, e⟩ := p
    by_cases hkw : k = w
    · subst hkw; simp [addList, amountOf, findEntry]
    · simp [addList, hkw, ih, amountOf, findEntry]

theorem runAdds_append (cs : List (String × String)) (c : String × String) :
    runAdds (cs ++ [c]) = ((runAdds cs).add c.1 c.2).1 := by
  simp [runAdds, List.foldl_append]

theorem runAdds_amount (calls : List (String × String)) (s : String) :
    amountOf (runAdds calls).hashmap s =
      (calls.filter (fun c => decide (c.1 = s))).length := by
  induction calls using List.reverseRecOn with
  | nil => simp [runAdds, Dict.new, amountOf, findEntry]
  | append_singleton cs c ih =>
    have hadd : ((runAdds cs).add c.1 c.2).1.hashmap
        = (addList (runAdds cs).hashmap c.1 c.2).1 := rfl
    rw [runAdds_append, hadd, amountOf_addList, ih, List.filter_append,
      List.length_append]
    by_cases h : s = c.1
    · simp [h]
    · simp [h, Ne.symm h]

theorem runAdds_files (calls : List (String × String)) (s : String) :
    filesOf (runAdds calls).hashmap s =
      ((calls.filter (fun c => decide (c.1 = s))).map Prod.snd).toFinset := by
  induction calls using List.reverseRecOn with
  | nil => simp [runAdds, Dict.new, filesOf, findEntry]
  | append_singleton cs c ih =>
    have hadd : ((runAdds cs).add c.1 c.2).1.hashmap
        = (addList (runAdds cs).hashmap c.1 c.2).1 := rfl
    rw [runAdds_append, hadd, filesOf_addList, ih, List.filter_append]
    by_cases h : s = c.1
    · simp [h, List.toFinset_append, Finset.union_comm, Finset.insert_eq]
    · simp [h, Ne.symm h]

theorem inv_addList (l : List (String × Entry)) (w f : String)
    (h : ∀ p ∈ l, p.2.contained_in.card ≤ p.2.amount) :
    ∀ p ∈ (addList l w f).1, p.2.contained_in.card ≤ p.2.amount := by
  induction l with
  | nil =>
    intro p hp
    have hp2 : p = (w, ⟨1, {f}⟩) := by simpa [addList] using hp
    subst hp2
    simp
  | cons q rest ih =>
    obtain ⟨k, e⟩ := q
    intro p hp
    by_cases hkw : k = w
    · subst hkw
      have hp2 : p = (k, ⟨e.amount + 1, insert f e.contained_in⟩) ∨ p ∈ rest := by
        simpa [addList] using hp
      rcases hp2 with hp2 | hp2
      · subst hp2
        have he := h (k, e) (by simp)
        have hc := Finset.card_insert_le f e.contained_in
        simp only at he ⊢
        omega
      · exact h p (List.mem_cons_of_mem _ hp2)
    · have hp2 : p = (k, e) ∨ p ∈ (addList rest w f).1 := by
        simpa [addList, hkw] using hp
      rcases hp2 with hp2 | hp2
      · subst hp2; exact h (k, e) (by simp)
      · exact ih (fun q hq => h q (List.mem_cons_of_mem _ hq)) p hp2

theorem inv_foldl (calls : List (String × String)) (d : Dict)
    (h : Dict.Inv d) :
    Dict.Inv (calls.foldl (fun d c => (d.add c.1 c.2).1) d) := by
  induction calls generalizing d with
  | nil => exact h
  | cons c cs ih => exact ih _ (inv_addList d.hashmap c.1 c.2 h)

theorem stem_and_compare_iff (stemmer : String → String) (w : String)
    (ex : List String) :
    stem_and_compare stemmer w ex = true ↔ ∃ e ∈ ex, stemmer e = stemmer w := by
  simp [stem_and_compare, List.length_pos, List.filter_eq_nil_iff]

theorem mem_dict_sort_iff (d : Dict) (glen : String → Nat) (wt ft lt : Nat)
    (stem : String) (n : Nat) (files : Finset String) :
    (stem, n, files) ∈ d.sort glen wt ft lt ↔
      ((stem, Entry.mk n files) ∈ d.hashmap ∧ wt ≤ n ∧ ft < files.card ∧
        lt < glen stem) := by
  unfold Dict.sort
  simp only [List.mem_insertionSort, List.mem_filter, List.mem_map,
    Bool.and_eq_true, decide_eq_true_eq]
  constructor
  · rintro ⟨⟨⟨pw, pe⟩, hp, heq⟩, ⟨hc1, hc2⟩, hc3⟩
    have h1 : pw = stem := congrArg Prod.fst heq
    have h2 : pe.amount = n := congrArg (fun t => t.2.1) heq
    have h3 : pe.contained_in = files := congrArg (fun t => t.2.2) heq
    subst h1; subst h2; subst h3
    exact ⟨hp, hc2, hc1, hc3⟩
  · rintro ⟨hp, h1, h2, h3⟩
    exact ⟨⟨(stem, Entry.mk n files), hp, rfl⟩, ⟨h2, h1⟩, h3⟩

theorem ruStep_of_ascii (ruStem : String → String) (exclude : List String)
    (fname : String) (st : PState) (w : String) (h : isAsciiStr w = true) :
    ruStep ruStem exclude fname st w = st := by
  simp [ruStep, h]

theorem enStep_of_nonascii (enStem : String → String) (exclude : List String)
    (fname : String) (st : PState) (w : String) (h : isAsciiStr w = false) :
    enStep enStem exclude fname st w = st := by
  simp [enStep, h]

theorem ruStep_of_excluded (ruStem : String → String) (exclude : List String)
    (fname : String) (st : PState) (w : String)
    (h : ∃ e ∈ exclude, ruStem e = ruStem w) :
    ruStep ruStem exclude fname st w = st := by
  by_cases ha : isAsciiStr w
  · exact ruStep_of_ascii ruStem exclude fname st w ha
  · simp [ruStep, ha, (stem_and_compare_iff ruStem w exclude).mpr h]

theorem enStep_of_excluded (enStem : String → String) (exclude : List String)
    (fname : String) (st : PState) (w : String)
    (h : ∃ e ∈ exclude, enStem e = enStem w) :
    enStep enStem exclude fname st w = st := by
  by_cases ha : isAsciiStr w
  · simp [enStep, ha, (stem_and_compare_iff enStem w exclude).mpr h]
  · exact enStep_of_nonascii enStem exclude fname st w (by simpa using ha)

theorem lookupU_isSome_append (u v : List (String × String)) (k : String)
    (h : (lookupU u k).isSome = true) :
    (lookupU (u ++ v) k).isSome = true := by
  induction u with
  | nil => simp [lookupU] at h
  | cons p rest ih =>
    obtain ⟨a, b⟩ := p
    by_cases hak : a = k
    · simp [lookupU, hak]
    · simp only [lookupU, if_neg hak] at h
      simpa [lookupU, hak] using ih h

theorem lookupU_append_self (u : List (String × String)) (k v : String) :
    (lookupU (u ++ [(k, v)]) k).isSome = true := by
  induction u with
  | nil => simp [lookupU]
  | cons p rest ih =>
    obtain ⟨a, b⟩ := p
    by_cases hak : a = k <;> simp [lookupU, hak, ih]

theorem mem_addList_keys (l : List (String × Entry)) (w f : String)
    (p : String × Entry) (hp : p ∈ (addList l w f).1) :
    p.1 = w ∨ ∃ q ∈ l, q.1 = p.1 := by
  induction l with
  | nil =>
    have hp2 : p = (w, ⟨1, {f}⟩) := by simpa [addList] using hp
    subst hp2
    left; rfl
  | cons q rest ih =>
    obtain ⟨k, e⟩ := q
    by_cases hkw : k = w
    · subst hkw
      have hp2 : p = (k, ⟨e.amount + 1, insert f e.contained_in⟩) ∨ p ∈ rest := by
        simpa [addList] using hp
      rcases hp2 with hp2 | hp2
      · left; rw [hp2]
      · right; exact ⟨p, List.mem_cons_of_mem _ hp2, rfl⟩
    · have hp2 : p = (k, e) ∨ p ∈ (addList rest w f).1 := by
        simpa [addList, hkw] using hp
      rcases hp2 with hp2 | hp2
      · right; exact ⟨(k, e), by simp, by rw [hp2]⟩
      · rcases ih hp2 with h1 | ⟨q, hq, hq1⟩
        · left; exact h1
        · right; exact ⟨q, List.mem_cons_of_mem _ hq, hq1⟩

theorem ruStep_coversSt (ruStem : String → String) (exclude : List String)
    (fname : String) (st : PState) (w : String) (h : CoversSt st) :
    CoversSt (ruStep ruStem exclude fname st w) := by
  by_cases ha : isAsciiStr w = true
  · rw [ruStep_of_ascii ruStem exclude fname st w ha]; exact h
  · have ha' : isAsciiStr w = false := by simpa using ha
    by_cases hsc : stem_and_compare ruStem w exclude = true
    · have hstep : ruStep ruStem exclude fname st w = st := by
        simp [ruStep, ha', hsc]
      rw [hstep]; exact h
    · have hsc' : stem_and_compare ruStem w exclude = false := by simpa using hsc
      have hstep : ruStep ruStem exclude fname st w =
          { st with
            ru := (st.ru.add (ruStem w) fname).1,
            unstemmed :=
              if (lookupU st.unstemmed (ruStem w)).isSome then st.unstemmed
              else st.unstemmed ++ [(ruStem w, w)] } := by
        simp [ruStep, ha', hsc']
      rw [hstep]
      obtain ⟨hru, hen⟩ := h
      have hmono : ∀ k, (lookupU st.unstemmed k).isSome = true →
          (lookupU (if (lookupU st.unstemmed (ruStem w)).isSome
            then st.unstemmed
            else st.unstemmed ++ [(ruStem w, w)]) k).isSome = true := by
        intro k hk
        by_cases hl : (lookupU st.unstemmed (ruStem w)).isSome = true
        · rw [if_pos hl]; exact hk
        · rw [if_neg hl]; exact lookupU_isSome_append _ _ _ hk
      have hself :
          (lookupU (if (lookupU st.unstemmed (ruStem w)).isSome
            then st.unstemmed
            else st.unstemmed ++ [(ruStem w, w)]) (ruStem w)).isSome = true := by
        by_cases hl : (lookupU st.unstemmed (ruStem w)).isSome = true
        · rw [if_pos hl]; exact hl
        · rw [if_neg hl]; exact lookupU_append_self _ _ _
      refine ⟨?_, ?_⟩
      · intro p hp
        rcases mem_addList_keys st.ru.hashmap (ruStem w) fname p hp with
          h1 | ⟨q, hq, hq1⟩
        · rw [h1]; exact hself
        · rw [← hq1]; exact hmono _ (hru q hq)
      · intro p hp
        exact hmono _ (hen p hp)

theorem enStep_coversSt (enStem : String → String) (exclude : List String)
    (fname : String) (st : PState) (w : String) (h : CoversSt st) :
    CoversSt (enStep enStem exclude fname st w) := by
  by_cases ha : isAsciiStr w = true
  · by_cases hsc : stem_and_compare enStem w exclude = true
    · have hstep : enStep enStem exclude fname st w = st := by
        simp [enStep, ha, hsc]
      rw [hstep]; exact h
    · have hsc' : stem_and_compare enStem w exclude = false := by simpa using hsc
      have hstep : enStep enStem exclude fname st w =
          { st with
            en := (st.en.add (enStem w) fname).1,
            unstemmed :=
              if (lookupU st.unstemmed (enStem w)).isSome then st.unstemmed
              else st.unstemmed ++ [(enStem w, w)] } := by
        simp [enStep, ha, hsc']
      rw [hstep]
      obtain ⟨hru, hen⟩ := h
      have hmono : ∀ k, (lookupU st.unstemmed k).isSome = true →
          (lookupU (if (lookupU st.unstemmed (enStem w)).isSome
            then st.unstemmed
            else st.unstemmed ++ [(enStem w, w)]) k).isSome = true := by
        intro k hk
        by_cases hl : (lookupU st.unstemmed (enStem w)).isSome = true
        · rw [if_pos hl]; exact hk
        · rw [if_neg hl]; exact lookupU_isSome_append _ _ _ hk
      have hself :
          (lookupU (if (lookupU st.unstemmed (enStem w)).isSome
            then st.unstemmed
            else st.unstemmed ++ [(enStem w, w)]) (enStem w)).isSome = true := by
        by_cases hl : (lookupU st.unstemmed (enStem w)).isSome = true
        · rw [if_pos hl]; exact hl
        · rw [if_neg hl]; exact lookupU_append_self _ _ _
      refine ⟨?_, ?_⟩
      · intro p hp
        exact hmono _ (hru p hp)
      · intro p hp
        rcases mem_addList_keys st.en.hashmap (enStem w) fname p hp with
          h1 | ⟨q, hq, hq1⟩
        · rw [h1]; exact hself
        · rw [← hq1]; exact hmono _ (hen q hq)
  · have ha' : isAsciiStr w = false := by simpa using ha
    rw [enStep_of_nonascii enStem exclude fname st w ha']; exact h

theorem foldl_ruStep_coversSt (ruStem : String → String)
    (exclude : List String) (fname : String) (words : List String) :
    ∀ st, CoversSt st →
      CoversSt (words.foldl (ruStep ruStem exclude fname) st) := by
  induction words with
  | nil => intro st h; exact h
  | cons w ws ih =>
    intro st h
    exact ih _ (ruStep_coversSt ruStem exclude fname st w h)

theorem foldl_enStep_coversSt (enStem : String → String)
    (exclude : List String) (fname : String) (words : List String) :
    ∀ st, CoversSt st →
      CoversSt (words.foldl (enStep enStem exclude fname) st) := by
  induction words with
  | nil => intro st h; exact h
  | cons w ws ih =>
    intro st h
    exact ih _ (enStep_coversSt enStem exclude fname st w h)

theorem processFile_coversSt (ruStem enStem : String → String)
    (exclude : List String) (st : PState) (fname : String)
    (words : List String) (h : CoversSt st) :
    CoversSt (processFile ruStem enStem exclude st fname words) := by
  exact foldl_enStep_coversSt enStem exclude fname words _
    (foldl_ruStep_coversSt ruStem exclude fname words st h)

theorem processAll_coversSt (cc : CharClass) (ruStem enStem : String → String)
    (exclude : List String) (files : List (String × String)) :
    CoversSt (processAll cc ruStem enStem exclude files) := by
  have hinit : CoversSt initState := by
    constructor <;> intro p hp <;> exact absurd hp (List.not_mem_nil p)
  have hgen : ∀ (fs : List (String × String)) (st : PState), CoversSt st →
      CoversSt (fs.foldl
        (fun st p =>
          processFile ruStem enStem exclude st p.1
            ((tokenize cc p.2.data).map (fun cs => String.mk cs))) st) := by
    intro fs
    induction fs with
    | nil => intro st h; exact h
    | cons f rest ih =>
      intro st h
      exact ih _ (processFile_coversSt ruStem enStem exclude st f.1 _ h)
  exact hgen files initState hinit

theorem splitSpace_chars (c : Char) (tok : List Char) :
    ∀ (l acc : List Char), tok ∈ splitSpace l acc → c ∈ tok →
      c ∈ l ∨ c ∈ acc := by
  intro l
  induction l with
  | nil =>
    intro acc htok hc
    have h2 : tok = acc.reverse := by simpa [splitSpace] using htok
    subst h2
    right; simpa using hc
  | cons d rest ih =>
    intro acc htok hc
    by_cases hd : d = ' '
    · have h2 : tok = acc.reverse ∨ tok ∈ splitSpace rest [] := by
        simpa [splitSpace, hd] using htok
      rcases h2 with h2 | h2
      · subst h2; right; simpa using hc
      · rcases ih [] h2 hc with h3 | h3
        · left; exact List.mem_cons_of_mem _ h3
        · exact absurd h3 (List.not_mem_nil c)
    · have h2 : tok ∈ splitSpace rest (d :: acc) := by
        simpa [splitSpace, hd] using htok
      rcases ih (d :: acc) h2 hc with h3 | h3
      · left; exact List.mem_cons_of_mem _ h3
      · rcases List.mem_cons.mp h3 with h4 | h4
        · left; rw [h4]; exact List.mem_cons_self d rest
        · right; exact h4

/-!
## The claims
-/

/-- C1: contrary to the claim that both language buckets are sorted,
filtered and handed to the Reporter, the report loop (src/main.rs lines
171-179) consumes only the Russian dictionary. At a concrete corpus whose
English dictionary has an entry passing every filter predicate, that
entry is absent from the program's printed rows, which are empty. -/
theorem english_bucket_never_reported :
    (processAll asciiCC (fun s => s) (fun s => s) []
        [(("at"), ("hello hello")), (("bt"), ("hello"))]).en.sort
      (fun s => s.length) 1 0 0 ≠ [] ∧
    reportRows asciiCC (fun s => s) (fun s => s) []
      [(("at"), ("hello hello")), (("bt"), ("hello"))]
      (fun s => s.length) 1 0 0 = [] := by
  decide

/-- C2: over any sequence of `add` calls on a fresh dictionary, the amount
stored for a stem equals the number of calls with that stem, the file set
equals the set of distinct file identifiers passed in those calls, and
every `add` returns the post-update amount for its stem. -/
theorem add_counts_and_files :
    (∀ (calls : List (String × String)) (s : String),
      amountOf (runAdds calls).hashmap s =
        (calls.filter (fun c => decide (c.1 = s))).length ∧
      filesOf (runAdds calls).hashmap s =
        ((calls.filter (fun c => decide (c.1 = s))).map Prod.snd).toFinset) ∧
    (∀ (d : Dict) (w f : String),
      (d.add w f).2 = amountOf ((d.add w f).1).hashmap w) := by
  refine ⟨fun calls s => ⟨runAdds_amount calls s, runAdds_files calls s⟩, ?_⟩
  intro d w f
  have h1 : (d.add w f).2 = (addList d.hashmap w f).2 := rfl
  have h2 : ((d.add w f).1).hashmap = (addList d.hashmap w f).1 := rfl
  rw [h1, h2, addList_snd, amountOf_addList]
  simp

/-- C3: `sort` returns exactly the entries with `amount >= words`
(non-strict), `contained_in.card > filenum` (strict) and grapheme length of
the stem `> length` (strict): a row is in the output iff the corresponding
entry is in the dictionary and passes all three predicates. -/
theorem sort_filter_membership (d : Dict) (glen : String → Nat)
    (wt ft lt : Nat) (stem : String) (n : Nat) (files : Finset String) :
    (stem, n, files) ∈ d.sort glen wt ft lt ↔
      ((stem, Entry.mk n files) ∈ d.hashmap ∧ wt ≤ n ∧ ft < files.card ∧
        lt < glen stem) :=
  mem_dict_sort_iff d glen wt ft lt stem n files

/-- C4: the rows returned by `sort` are pairwise non-increasing in amount
(`amountGE a b` says the amount of `a` is at least the amount of `b`). -/
theorem sort_output_sorted (d : Dict) (glen : String → Nat)
    (wt ft lt : Nat) :
    (d.sort glen wt ft lt).Pairwise amountGE := by
  haveI : IsTotal (String × Nat × Finset String) amountGE :=
    ⟨fun a b => Nat.le_total b.2.1 a.2.1⟩
  haveI : IsTrans (String × Nat × Finset String) amountGE :=
    ⟨fun a b c h1 h2 => Nat.le_trans h2 h1⟩
  exact List.sorted_insertionSort amountGE _

/-- C5: if some excluded word's stem equals the token's stem under the
token's assigned stemmer (English for ASCII tokens, Russian otherwise),
then running the token through both per-file loops changes nothing: no
dictionary `add` happens and nothing is inserted into the unstemmed map. -/
theorem excluded_token_contributes_nothing (ruStem enStem : String → String)
    (exclude : List String) (fname : String) (st : PState) (w : String)
    (h : ∃ e ∈ exclude,
      (if isAsciiStr w then enStem else ruStem) e =
        (if isAsciiStr w then enStem else ruStem) w) :
    enStep enStem exclude fname (ruStep ruStem exclude fname st w) w = st := by
  by_cases ha : isAsciiStr w = true
  · rw [ruStep_of_ascii ruStem exclude fname st w ha]
    apply enStep_of_excluded
    simpa [ha] using h
  · have ha' : isAsciiStr w = false := by simpa using ha
    rw [ruStep_of_excluded ruStem exclude fname st w (by simpa [ha'] using h)]
    exact enStep_of_nonascii enStem exclude fname st w ha'

/-- Witness for C5: with the identity stemmer and exclusion list
containing the token itself, processing the token leaves the state
untouched. -/
theorem excluded_token_contributes_nothing_witness :
    enStep (fun s => s) [("foo")] ("x")
      (ruStep (fun s => s) [("foo")] ("x") initState ("foo")) ("foo")
      = initState :=
  excluded_token_contributes_nothing (fun s => s) (fun s => s)
    [("foo")] ("x") initState ("foo") (by decide)

/-- C6: every dictionary reachable by a sequence of `add` calls from the
empty dictionary satisfies `contained_in.card ≤ amount` for every entry,
and a single `add` preserves the invariant on any dictionary that has it. -/
theorem dict_invariant_amount_ge_card :
    (∀ calls : List (String × String), Dict.Inv (runAdds calls)) ∧
    (∀ (d : Dict) (w f : String), Dict.Inv d → Dict.Inv (d.add w f).1) := by
  constructor
  · intro calls
    exact inv_foldl calls Dict.new (fun p hp => absurd hp (List.not_mem_nil p))
  · intro d w f h
    exact inv_addList d.hashmap w f h

/-- Witness for C6 at concrete inputs. -/
theorem dict_invariant_amount_ge_card_witness :
    Dict.Inv (runAdds [(("s"), ("a")), (("s"), ("a")), (("t"), ("b"))]) ∧
    Dict.Inv ((Dict.new.add ("s") ("a")).1) :=
  ⟨dict_invariant_amount_ge_card.1 _,
   dict_invariant_amount_ge_card.2 Dict.new ("s") ("a")
     (fun p hp => absurd hp (List.not_mem_nil p))⟩

/-- C7: after the whole file-processing pass, every key of either
frequency dictionary has an entry in the unstemmed map, and consequently
the report's unstemmed lookup succeeds for every row produced by `sort`
on the Russian dictionary. -/
theorem unstemmed_covers_dict_keys (cc : CharClass)
    (ruStem enStem : String → String) (exclude : List String)
    (files : List (String × String)) (glen : String → Nat)
    (wt ft lt : Nat) :
    (∀ p ∈ (processAll cc ruStem enStem exclude files).ru.hashmap,
      (lookupU (processAll cc ruStem enStem exclude files).unstemmed
        p.1).isSome = true) ∧
    (∀ p ∈ (processAll cc ruStem enStem exclude files).en.hashmap,
      (lookupU (processAll cc ruStem enStem exclude files).unstemmed
        p.1).isSome = true) ∧
    (∀ row ∈ (processAll cc ruStem enStem exclude files).ru.sort
        glen wt ft lt,
      (lookupU (processAll cc ruStem enStem exclude files).unstemmed
        row.1).isSome = true) := by
  obtain ⟨hru, hen⟩ := processAll_coversSt cc ruStem enStem exclude files
  refine ⟨hru, hen, ?_⟩
  intro row hrow
  obtain ⟨s, n, fs⟩ := row
  have hmem := (mem_dict_sort_iff _ glen wt ft lt s n fs).mp hrow
  exact hru (s, Entry.mk n fs) hmem.1

/-- Witness for C7 at a concrete corpus. -/
theorem unstemmed_covers_dict_keys_witness :
    (lookupU (processAll asciiCC (fun s => s) (fun s => s) []
        [(("f"), ("ab"))]).unstemmed ("ab")).isSome = true :=
  (unstemmed_covers_dict_keys asciiCC (fun s => s) (fun s => s) []
      [(("f"), ("ab"))] (fun s => s.length) 1 1 1).2.1
    (("ab"), ⟨1, {("f")}⟩) (by decide)

/-- C8: adding the same stem and file twice increases the amount by
exactly 2, and leaves the file set unchanged when the file was already a
member. -/
theorem double_add_same_file (d : Dict) (s f : String) :
    amountOf (((d.add s f).1.add s f).1).hashmap s =
      amountOf d.hashmap s + 2 ∧
    (f ∈ filesOf d.hashmap s →
      filesOf (((d.add s f).1.add s f).1).hashmap s = filesOf d.hashmap s) := by
  have h1 : ((d.add s f).1).hashmap = (addList d.hashmap s f).1 := rfl
  have h2 : (((d.add s f).1.add s f).1).hashmap
      = (addList ((d.add s f).1).hashmap s f).1 := rfl
  constructor
  · rw [h2, amountOf_addList, h1, amountOf_addList]
    simp
  · intro hf
    rw [h2, filesOf_addList, h1, filesOf_addList]
    simp [Finset.insert_idem, Finset.insert_eq_self.mpr hf]

/-- Witness for C8: the file is already a member after the first add. -/
theorem double_add_same_file_witness :
    amountOf (((((Dict.new.add ("s") ("a")).1).add ("s") ("a")).1.add
        ("s") ("a")).1).hashmap ("s")
      = amountOf ((Dict.new.add ("s") ("a")).1).hashmap ("s") + 2 ∧
    filesOf (((((Dict.new.add ("s") ("a")).1).add ("s") ("a")).1.add
        ("s") ("a")).1).hashmap ("s")
      = filesOf ((Dict.new.add ("s") ("a")).1).hashmap ("s") :=
  ⟨(double_add_same_file ((Dict.new.add ("s") ("a")).1) ("s") ("a")).1,
   (double_add_same_file ((Dict.new.add ("s") ("a")).1) ("s") ("a")).2
     (by decide)⟩

/-- C9 counterexample: the tokenizer filter keeps a tab (it is whitespace
and not a newline), and splitting on the space character does not remove
it, so the ASCII text with a tab between two letters yields a single token
that contains the tab — refuting the claim that no token ever contains a
tab. -/
theorem tokenizer_tab_counterexample :
    tokenize asciiCC (("a\tb").data) = [['a', '\t', 'b']] ∧
    ('\t' ∈ ['a', '\t', 'b']) := by
  decide

/-- C9 (amended): the token sequence equals the spec-described process
(lower-case, keep alphabetic or non-newline whitespace, split on space);
no token ever contains a newline (provided the alphabetic class excludes
the newline character); and words adjacent across a stripped line break
merge into one token. Tabs, however, are retained inside tokens. -/
theorem tokenizer_amended (cc : CharClass) (buf : List Char)
    (h : cc.isAlphabetic '\n' = false) :
    tokenize cc buf = tokenizeSpec cc buf ∧
    (∀ tok ∈ tokenize cc buf, ('\n' ∉ tok)) ∧
    tokenize asciiCC (("ab\ncd").data) = [['a', 'b', 'c', 'd']] := by
  refine ⟨rfl, ?_, by decide⟩
  intro tok htok hmem
  rcases splitSpace_chars '\n' tok _ [] htok hmem with hin | hin
  · have hpred := (List.mem_filter.mp hin).2
    simp [h] at hpred
  · exact absurd hin (List.not_mem_nil _)

/-- Witness for the amended C9 at the ASCII character classes and a
concrete text. -/
theorem tokenizer_amended_witness :
    tokenize asciiCC (("x y\nz").data) = tokenizeSpec asciiCC
      (("x y\nz").data) ∧
    (∀ tok ∈ tokenize asciiCC (("x y\nz").data), ('\n' ∉ tok)) ∧
    tokenize asciiCC (("ab\ncd").data) = [['a', 'b', 'c', 'd']] :=
  tokenizer_amended asciiCC (("x y\nz").data) (by decide)

/-- C10: the empty token is ASCII-classified, is skipped by the Russian
loop, and — when no excluded word's stem matches the English stem of the
empty string — the English loop performs an `add` with that stem,
incrementing its amount by one and leaving the Russian dictionary
untouched; consecutive spaces do produce an empty token. -/
theorem empty_token_english_bucket (ruStem enStem : String → String)
    (exclude : List String) (fname : String) (st : PState)
    (hex : ¬ ∃ e ∈ exclude, enStem e = enStem ("")) :
    isAsciiStr ("") = true ∧
    ruStep ruStem exclude fname st ("") = st ∧
    amountOf (enStep enStem exclude fname st ("")).en.hashmap
        (enStem ("")) =
      amountOf st.en.hashmap (enStem ("")) + 1 ∧
    (enStep enStem exclude fname st ("")).ru = st.ru ∧
    ("") ∈ (tokenize asciiCC (("a  b").data)).map
      (fun cs => String.mk cs) := by
  have hasc : isAsciiStr ("") = true := rfl
  have hsc : stem_and_compare enStem ("") exclude = false := by
    cases hcase : stem_and_compare enStem ("") exclude
    · rfl
    · exact absurd ((stem_and_compare_iff enStem ("") exclude).mp hcase) hex
  have hstep : enStep enStem exclude fname st ("") =
      { st with
        en := (st.en.add (enStem ("")) fname).1,
        unstemmed := if (lookupU st.unstemmed (enStem (""))).isSome
          then st.unstemmed
          else st.unstemmed ++ [(enStem (""), (""))] } := by
    simp [enStep, hasc, hsc]
  refine ⟨hasc, ruStep_of_ascii ruStem exclude fname st ("") hasc,
    ?_, ?_, by decide⟩
  · rw [hstep]
    show amountOf (addList st.en.hashmap (enStem ("")) fname).1
        (enStem ("")) = amountOf st.en.hashmap (enStem ("")) + 1
    rw [amountOf_addList]
    simp
  · rw [hstep]

/-- Witness for C10 with the identity stemmer and no exclusions. -/
theorem empty_token_english_bucket_witness :
    isAsciiStr ("") = true ∧
    ruStep (fun s => s) [] ("f") initState ("") = initState ∧
    amountOf (enStep (fun s => s) [] ("f") initState ("")).en.hashmap
        ((fun (s : String) => s) ("")) =
      amountOf initState.en.hashmap ((fun (s : String) => s) ("")) + 1 ∧
    (enStep (fun s => s) [] ("f") initState ("")).ru = initState.ru ∧
    ("") ∈ (tokenize asciiCC (("a  b").data)).map
      (fun cs => String.mk cs) :=
  empty_token_english_bucket (fun s => s) (fun s => s) [] ("f") initState
    (by decide)

end Notestem
